import Mathlib

/-!
Shallow embedding of `src/analysis.py` (PyRat experiment harness).

Python dicts preserve insertion order, so a dict is embedded as an
association list that keeps the position of an existing key on update
and appends a fresh key at the end.  Python values that flow through the
harness (booleans, integers, strings, pathlib.Path objects) are embedded
as the closed variant `PyValue`; a pathlib.Path is opaque here and only
exposes its textual form and its `stem` attribute, which is all the code
uses.  The external subprocess, the csv file and pandas are collaborators
of the repository, not part of it: a run is abstracted as a function from
the current configuration to the loaded dataset, and the column-wise mean
reduction applied by `pyrat_multiruns` is embedded explicitly.
-/

/-- A pathlib.Path object, opaque except for the two attributes the code
reads: its textual form, and its `stem` (base name without suffix). -/
structure PyPath where
  text : String
  stem : String
  deriving DecidableEq, Repr

/-- A Python value as used by the harness configuration. -/
inductive PyValue where
  | vbool : Bool → PyValue
  | vint : Int → PyValue
  | vstr : String → PyValue
  | vpath : PyPath → PyValue
  deriving DecidableEq, Repr

/-- A driver configuration: Python dict from option name to value,
in insertion order. -/
abbrev Config := List (String × PyValue)

/-- Python dict lookup `d[k]` on an insertion-ordered association list. -/
def dictGet {κ : Type} {β : Type} [DecidableEq κ] (k : κ) : List (κ × β) → Option β
  | [] => none
  | (k₁, v) :: rest => if k₁ = k then some v else dictGet k rest

/-- Python dict assignment `d[k] = v`: overwrite in place when the key is
present (keeping its position), append at the end otherwise. -/
def dictUpdate {κ : Type} {β : Type} [DecidableEq κ] : List (κ × β) → κ → β → List (κ × β)
  | [], k, v => [(k, v)]
  | (k₁, v₁) :: rest, k, v =>
      if k₁ = k then (k₁, v) :: rest else (k₁, v₁) :: dictUpdate rest k v

/-- Cartesian product of a list of lists, in the order of
`itertools.product`: the rightmost list varies fastest, and the product
of zero lists is the single empty tuple. -/
def listProduct {α : Type} : List (List α) → List (List α)
  | [] => [[]]
  | xs :: rest => xs.flatMap (fun x => (listProduct rest).map (fun t => x :: t))

/-- `dict_product` from analysis.py: keys are the grid keys, and each
element of the product of the value lists is zipped back with the keys
(`dict(zip(keys, pms))`).  Pure, hence deterministic on equal input. -/
def dict_product {α : Type} (d : List (String × List α)) : List (List (String × α)) :=
  (listProduct (d.map Prod.snd)).map (fun pms => List.zip (d.map Prod.fst) pms)

/-- Python `str(value)` for the values the harness passes around:
`str(True)` is the text True, `str(False)` the text False, integers print
as usual, strings print themselves, a Path prints its textual form. -/
def pyStr : PyValue → String
  | PyValue.vbool true => "True"
  | PyValue.vbool false => "False"
  | PyValue.vint n => toString n
  | PyValue.vstr s => s
  | PyValue.vpath p => p.text

/-- The guard `isinstance(value, bool) and value is True` from
`cmd_line_args`. -/
def isTrueBool : PyValue → Bool
  | PyValue.vbool true => true
  | _ => false

/-- `PyRatGame.cmd_line_args`: start from the interpreter token and the
program entry point, then iterate the configuration in mapping order,
appending a bare flag for a literal boolean True and a flag followed by
the stringified value otherwise. -/
def cmd_line_args (kwargs : Config) : List String :=
  kwargs.foldl
    (fun args nv =>
      if isTrueBool nv.2 then args ++ ["--" ++ nv.1]
      else args ++ ["--" ++ nv.1, pyStr nv.2])
    ["python", "pyrat.py"]

/-- The fixed marker text of the line announcing the statistics file,
as a character sequence.  String scanning is embedded on character lists
because the byte-position primitives of `String` do not reduce in the
kernel; `String.data` and `String.mk` mediate at the interface. -/
def statsMarker : List Char := "Stats can be found at: ".data

/-- The tabular-file suffix required by the pattern. -/
def csvSuffix : List Char := ".csv".data

/-- Split a character sequence at newline characters; together with the
MULTILINE caret and dollar anchors of `csv_path_pattern`, a match of the
pattern is confined to one of these pieces. -/
def charSplitNl : List Char → List (List Char)
  | [] => [[]]
  | c :: rest =>
      if c = '\n' then [] :: charSplitNl rest
      else
        match charSplitNl rest with
        | [] => [[c]]
        | l :: ls => (c :: l) :: ls

/-- Whether one line of the captured output matches `csv_path_pattern`
(anchored at both ends of the line): it starts with the marker and the
remainder ends in the csv suffix.  The dot of the regex never crosses a
newline and the lazy group is forced to reach the end-of-line anchor, so
on one line the match is exactly this test and the captured group is
everything after the marker. -/
def lineMatch (L : List Char) : Bool :=
  statsMarker.isPrefixOf L && csvSuffix.isSuffixOf (L.drop statsMarker.length)

/-- The captured csv_path group of a matching line. -/
def lineCsvPath (L : List Char) : List Char :=
  L.drop statsMarker.length

/-- `PyRatGame._extract_csv_path`: `re.search` with the MULTILINE pattern
scans the whole captured output and returns the leftmost match; since the
caret only matches at line starts, that is the first line matching the
pattern.  `none` embeds the AttributeError raised on a failed search
(`groupdict` called on None). -/
def extract_csv_path (stdout : String) : Option String :=
  (charSplitNl stdout.data).findSome?
    (fun L => if lineMatch L then some (String.mk (lineCsvPath L)) else none)

/-- An attribute slot of a Python instance dictionary: either a plain
value or the configuration store (a dict). -/
inductive PyAttr where
  | val : PyValue → PyAttr
  | store : Config → PyAttr
  deriving DecidableEq, Repr

/-- A `PyRatGame` instance: its attribute dictionary.  Construction and
the redefined attribute assignment are modelled below. -/
structure PyRatGame where
  objdict : List (String × PyAttr)
  deriving DecidableEq, Repr

/-- The two options enabled by default at construction. -/
def default_kwargs : Config :=
  [("synchronous", PyValue.vbool true), ("nodrawing", PyValue.vbool true)]

/-- The double-star dict merge at construction: defaults first, then the
caller's options overwrite same-named defaults and append fresh names. -/
def mergeKwargs (base override : Config) : Config :=
  override.foldl (fun d nv => dictUpdate d nv.1 nv.2) base

/-- `PyRatGame.__init__`: bypasses the redefined attribute assignment and
stores the merged option dict as the single instance attribute kwargs. -/
def PyRatGame.init (kwargs : Config) : PyRatGame :=
  ⟨[("kwargs", PyAttr.store (mergeKwargs default_kwargs kwargs))]⟩

/-- Reading `self.kwargs` on an instance. -/
def kwargsOf (g : PyRatGame) : Config :=
  match dictGet "kwargs" g.objdict with
  | some (PyAttr.store d) => d
  | _ => []

/-- `PyRatGame.__setattr__`: every attribute assignment, whatever the
name, becomes an in-place update of the kwargs dict; the instance
dictionary itself gains no entry and loses no entry. -/
def PyRatGame.setattr (g : PyRatGame) (name : String) (v : PyValue) : PyRatGame :=
  ⟨g.objdict.map (fun e =>
    if e.1 = "kwargs" then
      (e.1,
        match e.2 with
        | PyAttr.store d => PyAttr.store (dictUpdate d name v)
        | a => a)
    else e)⟩

/-- A loaded per-run dataset: named statistic columns, each a list of
per-trial values (the csv subprocess output, loaded by pandas; the
subprocess itself is external to the repository). -/
abbrev Dataset := List (String × List Rat)

/-- A mean-reduced row: one value per statistic name. -/
abbrev Stats := List (String × Rat)

/-- The `stats.mean()` reduction in `pyrat_multiruns`: the column-wise
arithmetic mean across trial rows, keeping the column names. -/
def dfMean (d : Dataset) : Stats :=
  d.map (fun c => (c.1, c.2.sum / (c.2.length : Rat)))

/-- One step of the parameter-overlay loop in `pyrat_multiruns`: write
the swept entry into the configuration and, when the linking flag is on,
mirror a height entry onto width and a width entry onto height. -/
def applyOne (link : Bool) (kw : Config) (nv : String × PyValue) : Config :=
  let kw1 := dictUpdate kw nv.1 nv.2
  if link then
    if nv.1 = "height" then dictUpdate kw1 "width" nv.2
    else if nv.1 = "width" then dictUpdate kw1 "height" nv.2
    else kw1
  else kw1

/-- The full overlay of one grid combination onto the configuration. -/
def applyParams (link : Bool) (params : List (String × PyValue))
    (kwargs : Config) : Config :=
  params.foldl (applyOne link) kwargs

/-- Rendering of one parameter for the result index: values under the
names rat and python are replaced by the stem of the Path object
(`str(pvalue.stem)`); any other value is kept as is.  A rat or python
value that is not a Path object has no stem attribute, which raises in
the source; that failure is `none` here. -/
def renderPValue (pname : String) (pvalue : PyValue) : Option PyValue :=
  if pname = "rat" ∨ pname = "python" then
    match pvalue with
    | PyValue.vpath p => some (PyValue.vstr p.stem)
    | _ => none
  else some pvalue

/-- The rendered index tuple of one combination, in the combination's own
key order; the whole tuple fails as soon as one component fails. -/
def renderTuple : List (String × PyValue) → Option (List PyValue)
  | [] => some []
  | nv :: rest =>
      match renderPValue nv.1 nv.2, renderTuple rest with
      | some v, some vs => some (v :: vs)
      | _, _ => none

/-- The run loop of `pyrat_multiruns`.  One reused configuration is
threaded through all combinations; each iteration overlays the current
combination, executes one run (`runner` abstracts the subprocess plus the
csv load of `PyRatGame.run`), reduces it by the column-wise mean, renders
the index tuple, and stores the reduced row in the results dict keyed by
that tuple.  The first component of the product lists every configuration
a run was executed with, in execution order; a `none` second component is
the uncaught rendering error, raised after the current run has executed. -/
def multirunsGo (runner : Config → Dataset) (link : Bool) :
    List (List (String × PyValue)) → Config → List Config →
    List (List PyValue × Stats) →
    List Config × Option (List (List PyValue × Stats))
  | [], _, trace, results => (trace, some results)
  | params :: rest, kwargs, trace, results =>
      let kwargs1 := applyParams link params kwargs
      let stats := dfMean (runner kwargs1)
      match renderTuple params with
      | none => (trace ++ [kwargs1], none)
      | some pv =>
          multirunsGo runner link rest kwargs1 (trace ++ [kwargs1])
            (dictUpdate results pv stats)

/-- The sweep result: the dataframe built from the results dict, with the
rows still keyed by rendered tuple, and the index names assigned from the
grid keys (`df.index.names = params_keys`). -/
structure MultirunsResult where
  indexNames : List String
  rows : List (List PyValue × Stats)
  deriving DecidableEq, Repr

/-- `pyrat_multiruns`: build the driver from the fixed parameters (the
defaults merged in by construction), iterate `dict_product` of the grid,
and assemble the result table.  The first component is the list of
configurations actually run. -/
def pyrat_multiruns (runner : Config → Dataset) (fixed_params : Config)
    (grid_params : List (String × List PyValue))
    (link_height_width : Bool) : List Config × Option MultirunsResult :=
  let kwargs0 := kwargsOf (PyRatGame.init fixed_params)
  let out := multirunsGo runner link_height_width (dict_product grid_params)
    kwargs0 [] []
  (out.1, out.2.map (fun rows => ⟨grid_params.map Prod.fst, rows⟩))

/-- A sweep grid whose two rat scripts live in different directories but
share the stem x, so their rendered index tuples coincide. -/
def gridStemClash : List (String × List PyValue) :=
  [("rat", [PyValue.vpath ⟨"AIs/a/x.py", "x"⟩, PyValue.vpath ⟨"AIs/b/x.py", "x"⟩])]

/-- A run oracle reporting one constant statistic column. -/
def runnerConst : Config → Dataset := fun _ => [("score", [1])]

/-- A three-combination width sweep. -/
def gridWidthSweep : List (String × List PyValue) :=
  [("width", [PyValue.vint 5, PyValue.vint 10, PyValue.vint 15])]

/-- A run oracle with one statistic column of two trials. -/
def runnerTwoTrials : Config → Dataset := fun _ => [("score", [1, 3])]

/-- A grid of two rat scripts with distinct directories and equal stem y. -/
def gridStemClashB : List (String × List PyValue) :=
  [("rat", [PyValue.vpath ⟨"p/y.py", "y"⟩, PyValue.vpath ⟨"q/y.py", "y"⟩])]

/-- A run oracle whose score distinguishes the two rat scripts. -/
def runnerMark : Config → Dataset := fun kw =>
  [("score",
    [if dictGet "rat" kw = some (PyValue.vpath ⟨"q/y.py", "y"⟩) then (2 : Rat)
     else 1])]

/-- A single-script grid whose rat value is a Path object. -/
def gridPathOk : List (String × List PyValue) :=
  [("rat", [PyValue.vpath ⟨"AIs/bfs.py", "bfs"⟩])]

/-- A single-script grid whose rat value is a plain string. -/
def gridPathBad : List (String × List PyValue) :=
  [("rat", [PyValue.vstr "plain.py"])]

/-- A run oracle reporting no statistics at all. -/
def runnerEmpty : Config → Dataset := fun _ => []

/-- The spec example grid: width over 5 and 10, density over 2 and 4. -/
def gridExample : List (String × List PyValue) :=
  [("width", [PyValue.vint 5, PyValue.vint 10]),
   ("density", [PyValue.vint 2, PyValue.vint 4])]

theorem dictGet_dictUpdate_self {κ β : Type} [DecidableEq κ]
    (d : List (κ × β)) (k : κ) (v : β) :
    dictGet k (dictUpdate d k v) = some v := by
  induction d with
  | nil => simp [dictUpdate, dictGet]
  | cons hd tl ih =>
      obtain ⟨k₁, v₁⟩ := hd
      by_cases hk : k₁ = k
      · simp [dictUpdate, dictGet, hk]
      · simp [dictUpdate, dictGet, hk, ih]

theorem dictGet_dictUpdate_ne {κ β : Type} [DecidableEq κ]
    (d : List (κ × β)) (k k₁ : κ) (v : β) (hne : k₁ ≠ k) :
    dictGet k (dictUpdate d k₁ v) = dictGet k d := by
  induction d with
  | nil => simp [dictUpdate, dictGet, hne]
  | cons hd tl ih =>
      obtain ⟨k₂, v₂⟩ := hd
      by_cases hk : k₂ = k₁
      · subst hk
        simp [dictUpdate, dictGet, hne]
      · by_cases hk₂ : k₂ = k
        · simp [dictUpdate, dictGet, hk, hk₂, Ne.symm hne]
        · simp [dictUpdate, dictGet, hk, hk₂, ih]

theorem dictUpdate_of_not_mem {κ β : Type} [DecidableEq κ]
    (d : List (κ × β)) (k : κ) (v : β) (h : k ∉ d.map Prod.fst) :
    dictUpdate d k v = d ++ [(k, v)] := by
  induction d with
  | nil => simp [dictUpdate]
  | cons hd tl ih =>
      obtain ⟨k₁, v₁⟩ := hd
      simp only [List.map_cons, List.mem_cons] at h
      push_neg at h
      simp [dictUpdate, Ne.symm h.1, ih h.2]

theorem length_flatMap_const {α β : Type} (l : List α) (f : α → List β) (n : Nat)
    (h : ∀ x ∈ l, (f x).length = n) : (l.flatMap f).length = l.length * n := by
  induction l with
  | nil => simp
  | cons x xs ih =>
      simp only [List.flatMap_cons, List.length_append, List.length_cons,
        h x (by simp)]
      rw [ih (fun y hy => h y (by simp [hy]))]
      ring

theorem listProduct_length {α : Type} (vs : List (List α)) :
    (listProduct vs).length = (vs.map List.length).prod := by
  induction vs with
  | nil => simp [listProduct]
  | cons xs rest ih =>
      simp only [listProduct, List.map_cons, List.prod_cons]
      rw [length_flatMap_const _ _ ((rest.map List.length).prod)
        (fun x _ => by simp [ih])]

theorem listProduct_mem_length {α : Type} (vs : List (List α)) (t : List α)
    (ht : t ∈ listProduct vs) : t.length = vs.length := by
  induction vs generalizing t with
  | nil => simp [listProduct] at ht; simp [ht]
  | cons xs rest ih =>
      simp only [listProduct, List.mem_flatMap, List.mem_map] at ht
      obtain ⟨x, _, t₀, ht₀, rfl⟩ := ht
      simp [ih t₀ ht₀]

/-- Membership in `listProduct`: tuples pick one element from each list. -/
theorem listProduct_mem_iff {α : Type} (vs : List (List α)) (t : List α) :
    t ∈ listProduct vs ↔ List.Forall₂ (fun x xs => x ∈ xs) t vs := by
  induction vs generalizing t with
  | nil =>
      simp only [listProduct, List.mem_singleton]
      constructor
      · rintro rfl; exact List.Forall₂.nil
      · intro h; cases h; rfl
  | cons xs rest ih =>
      simp only [listProduct, List.mem_flatMap, List.mem_map]
      constructor
      · rintro ⟨x, hx, t₀, ht₀, rfl⟩
        exact List.Forall₂.cons hx ((ih t₀).mp ht₀)
      · intro h
        cases h with
        | cons hx hrest => exact ⟨_, hx, _, (ih _).mpr hrest, rfl⟩

/-- Claim C1: `dict_product` yields exactly the product of the value-list
lengths many mappings; every yielded mapping lists exactly the grid keys,
in the grid key order; and stripping the keys recovers precisely the
cartesian product of the value lists in the order of `itertools.product`
(each list in its own order).  The generator is a pure function of the
grid, hence deterministic. -/
theorem dict_product_spec {α : Type} (d : List (String × List α)) :
    (dict_product d).length = (d.map (fun e => e.2.length)).prod ∧
    (∀ m ∈ dict_product d, m.map Prod.fst = d.map Prod.fst) ∧
    (dict_product d).map (List.map Prod.snd) = listProduct (d.map Prod.snd) := by
  refine ⟨?_, ?_, ?_⟩
  · simp only [dict_product, List.length_map, listProduct_length, List.map_map]
    rfl
  · intro m hm
    simp only [dict_product, List.mem_map] at hm
    obtain ⟨t, ht, rfl⟩ := hm
    have hlen : t.length = d.length := by
      simpa using listProduct_mem_length _ t ht
    rw [List.map_fst_zip]
    simp [hlen]
  · simp only [dict_product, List.map_map]
    have h : ∀ t ∈ listProduct (d.map Prod.snd),
        (List.map Prod.snd ∘ fun pms => (d.map Prod.fst).zip pms) t = id t := by
      intro t ht
      have hlen : t.length = d.length := by
        simpa using listProduct_mem_length _ t ht
      simp only [Function.comp, id]
      rw [List.map_snd_zip]
      simp [hlen]
    rw [List.map_congr_left h, List.map_id]

/-- Claim C1 witness at the spec example grid: four combinations, and
the combination pairing width 5 with density 2 lists exactly the grid
keys in grid key order. -/
theorem dict_product_spec_witness :
    (dict_product gridExample).length =
      (gridExample.map (fun e => e.2.length)).prod ∧
    ([("width", PyValue.vint 5), ("density", PyValue.vint 2)]).map Prod.fst =
      gridExample.map Prod.fst :=
  ⟨(dict_product_spec gridExample).1,
   (dict_product_spec gridExample).2.1
     [("width", PyValue.vint 5), ("density", PyValue.vint 2)] (by decide)⟩

/-- Claim C2 counterexample: on the empty grid the generator does not
yield an empty sequence; it yields exactly one combination, the empty
mapping, because the cartesian product of zero lists has one element. -/
theorem dict_product_empty_counterexample :
    dict_product ([] : List (String × List PyValue)) = [[]] ∧
    (dict_product ([] : List (String × List PyValue))).length ≠ 0 := by
  constructor
  · rfl
  · decide

/-- Claim C2 (amended): on the empty grid the generator yields exactly
one combination, the empty mapping. -/
theorem dict_product_empty :
    dict_product ([] : List (String × List PyValue)) = [[]] := rfl

theorem cmd_line_args_foldl (kwargs : Config) (acc : List String) :
    kwargs.foldl
      (fun args nv =>
        if isTrueBool nv.2 then args ++ ["--" ++ nv.1]
        else args ++ ["--" ++ nv.1, pyStr nv.2]) acc =
    acc ++ kwargs.flatMap
      (fun nv =>
        if isTrueBool nv.2 then ["--" ++ nv.1]
        else ["--" ++ nv.1, pyStr nv.2]) := by
  induction kwargs generalizing acc with
  | nil => simp
  | cons nv rest ih =>
      by_cases hb : isTrueBool nv.2
      · simp [List.foldl_cons, hb, ih, List.flatMap_cons]
      · simp [List.foldl_cons, hb, ih, List.flatMap_cons]

/-- Claim C3: the rendered command line is the interpreter token and the
entry-point token followed by one group per configuration entry, in
mapping order: a bare flag for a literal boolean True, a flag plus the
stringified value otherwise; at the configuration holding nodrawing set
to True, width set to 13 and rat set to the text ai.py, in that insertion
order, the tail after the two leading tokens is exactly the five tokens
the spec lists. -/
theorem cmd_line_args_spec :
    (∀ kwargs : Config,
      cmd_line_args kwargs =
        ["python", "pyrat.py"] ++ kwargs.flatMap
          (fun nv =>
            if isTrueBool nv.2 then ["--" ++ nv.1]
            else ["--" ++ nv.1, pyStr nv.2])) ∧
    (cmd_line_args
        [("nodrawing", PyValue.vbool true), ("width", PyValue.vint 13),
         ("rat", PyValue.vstr "ai.py")]).drop 2 =
      ["--nodrawing", "--width", "13", "--rat", "ai.py"] := by
  constructor
  · intro kwargs
    exact cmd_line_args_foldl kwargs ["python", "pyrat.py"]
  · rfl

theorem findSome?_append_first {α β : Type} (pre : List α) (L : α)
    (post : List α) (f : α → Option β) (b : β)
    (hpre : ∀ M ∈ pre, f M = none) (hL : f L = some b) :
    (pre ++ L :: post).findSome? f = some b := by
  induction pre with
  | nil => simp [List.findSome?_cons, hL]
  | cons M rest ih =>
      simp only [List.cons_append, List.findSome?_cons, hpre M (by simp)]
      exact ih (fun M₁ h₁ => hpre M₁ (by simp [h₁]))

theorem findSome?_eq_none_of_all {α β : Type} (l : List α) (f : α → Option β)
    (h : ∀ x ∈ l, f x = none) : l.findSome? f = none := by
  induction l with
  | nil => rfl
  | cons x rest ih =>
      simp only [List.findSome?_cons, h x (by simp)]
      exact ih (fun y hy => h y (by simp [hy]))

/-- Claim C4: when the captured output, split at newlines, has a matching
line preceded only by non-matching lines, extraction returns exactly that
line's path (the text after the marker, ending in the csv suffix); the
search spans the whole multi-line output and is line-anchored. -/
theorem extract_csv_path_first_match (s : String) (pre post : List (List Char))
    (L : List Char) (hsplit : charSplitNl s.data = pre ++ L :: post)
    (hpre : ∀ M ∈ pre, lineMatch M = false) (hL : lineMatch L = true) :
    extract_csv_path s = some (String.mk (lineCsvPath L)) := by
  unfold extract_csv_path
  rw [hsplit]
  exact findSome?_append_first pre L post _ _
    (fun M hM => by simp [hpre M hM]) (by simp [hL])

/-- Claim C4 witness at the spec example. -/
theorem extract_csv_path_first_match_witness :
    extract_csv_path "irrelevant\nStats can be found at: /tmp/run1.csv\nmore\n" =
      some "/tmp/run1.csv" := by
  rw [extract_csv_path_first_match
    "irrelevant\nStats can be found at: /tmp/run1.csv\nmore\n"
    ["irrelevant".data] ["more".data, []]
    "Stats can be found at: /tmp/run1.csv".data
    (by decide) (by decide) (by decide)]
  decide

/-- Claim C5: when no line of the captured output matches the pattern,
extraction returns no path at all (the code then raises an error), never
a default or empty path. -/
theorem extract_csv_path_no_match (s : String)
    (h : ∀ L ∈ charSplitNl s.data, lineMatch L = false) :
    extract_csv_path s = none := by
  unfold extract_csv_path
  exact findSome?_eq_none_of_all _ _ (fun L hL => by simp [h L hL])

/-- Claim C5 witness: an output with no matching line extracts nothing. -/
theorem extract_csv_path_no_match_witness :
    extract_csv_path "no stats here\nbye" = none :=
  extract_csv_path_no_match _ (by decide)

theorem setattr_objdict_keys (g : PyRatGame) (name : String) (v : PyValue) :
    (g.setattr name v).objdict.map Prod.fst = g.objdict.map Prod.fst := by
  obtain ⟨d⟩ := g
  simp only [PyRatGame.setattr, List.map_map]
  induction d with
  | nil => rfl
  | cons e rest ih =>
      by_cases he : e.1 = "kwargs" <;>
        simp only [List.map_cons, Function.comp, he, if_true, if_false,
          reduceIte] at ih ⊢ <;> simp [ih]

/-- Claim C8: assigning any attribute name on a constructed driver stores
the value in the kwargs dict under that name and changes nothing else:
the instance dictionary keeps exactly its keys (so no same-named field is
created or shadowed, even for the name kwargs itself), the kwargs dict is
updated at exactly the assigned name, and every other configuration entry
is unchanged. -/
theorem pyrat_setattr_spec (kw : Config) (name : String) (v : PyValue) :
    (∀ g : PyRatGame,
      (g.setattr name v).objdict.map Prod.fst = g.objdict.map Prod.fst) ∧
    kwargsOf ((PyRatGame.init kw).setattr name v) =
      dictUpdate (kwargsOf (PyRatGame.init kw)) name v ∧
    dictGet name (kwargsOf ((PyRatGame.init kw).setattr name v)) = some v ∧
    (∀ k, k ≠ name →
      dictGet k (kwargsOf ((PyRatGame.init kw).setattr name v)) =
        dictGet k (kwargsOf (PyRatGame.init kw))) := by
  have hkw : kwargsOf ((PyRatGame.init kw).setattr name v) =
      dictUpdate (kwargsOf (PyRatGame.init kw)) name v := by
    simp [PyRatGame.init, PyRatGame.setattr, kwargsOf, dictGet]
  refine ⟨fun g => setattr_objdict_keys g name v, hkw, ?_, ?_⟩
  · rw [hkw]; exact dictGet_dictUpdate_self _ _ _
  · intro k hk
    rw [hkw]; exact dictGet_dictUpdate_ne _ _ _ _ (Ne.symm hk)

/-- Claim C8 witness: assigning the name kwargs itself on a freshly
constructed driver writes a configuration entry named kwargs and leaves
the instance dictionary keys unchanged. -/
theorem pyrat_setattr_spec_witness :
    kwargsOf ((PyRatGame.init []).setattr "kwargs" (PyValue.vint 7)) =
      dictUpdate (kwargsOf (PyRatGame.init [])) "kwargs" (PyValue.vint 7) ∧
    dictGet "width"
        (kwargsOf ((PyRatGame.init []).setattr "kwargs" (PyValue.vint 7))) =
      dictGet "width" (kwargsOf (PyRatGame.init [])) :=
  ⟨(pyrat_setattr_spec [] "kwargs" (PyValue.vint 7)).2.1,
   (pyrat_setattr_spec [] "kwargs" (PyValue.vint 7)).2.2.2 "width" (by decide)⟩

theorem applyOne_get_other (link : Bool) (kw : Config) (pn : String)
    (pv : PyValue) (k : String) (hk : pn ≠ k)
    (hw : link = true → pn = "height" → k ≠ "width")
    (hh : link = true → pn = "width" → k ≠ "height") :
    dictGet k (applyOne link kw (pn, pv)) = dictGet k kw := by
  unfold applyOne
  by_cases hl : link
  · simp only [hl, if_true]
    by_cases h1 : pn = "height"
    · rw [if_pos h1, dictGet_dictUpdate_ne _ _ _ _ (Ne.symm (hw hl h1)),
        dictGet_dictUpdate_ne _ _ _ _ hk]
    · rw [if_neg h1]
      by_cases h2 : pn = "width"
      · rw [if_pos h2, dictGet_dictUpdate_ne _ _ _ _ (Ne.symm (hh hl h2)),
          dictGet_dictUpdate_ne _ _ _ _ hk]
      · rw [if_neg h2, dictGet_dictUpdate_ne _ _ _ _ hk]
  · simp only [Bool.not_eq_true] at hl
    simp only [hl, Bool.false_eq_true, if_false]
    rw [dictGet_dictUpdate_ne _ _ _ _ hk]

theorem applyOne_link_hw (kw : Config) (pn : String) (pv : PyValue)
    (h : pn = "width" ∨ pn = "height") :
    dictGet "height" (applyOne true kw (pn, pv)) = some pv ∧
    dictGet "width" (applyOne true kw (pn, pv)) = some pv := by
  rcases h with h | h
  · subst h
    have e : applyOne true kw ("width", pv) =
        dictUpdate (dictUpdate kw "width" pv) "height" pv := by
      simp [applyOne]
    rw [e]
    constructor
    · exact dictGet_dictUpdate_self _ _ _
    · rw [dictGet_dictUpdate_ne _ _ _ _ (by decide)]
      exact dictGet_dictUpdate_self _ _ _
  · subst h
    have e : applyOne true kw ("height", pv) =
        dictUpdate (dictUpdate kw "height" pv) "width" pv := by
      simp [applyOne]
    rw [e]
    constructor
    · rw [dictGet_dictUpdate_ne _ _ _ _ (by decide)]
      exact dictGet_dictUpdate_self _ _ _
    · exact dictGet_dictUpdate_self _ _ _

theorem applyParams_frame (link : Bool) (params : List (String × PyValue)) :
    ∀ (kwargs : Config) (k : String),
      k ∉ params.map Prod.fst →
      (link = true → k = "width" → "height" ∉ params.map Prod.fst) →
      (link = true → k = "height" → "width" ∉ params.map Prod.fst) →
      dictGet k (applyParams link params kwargs) = dictGet k kwargs := by
  induction params with
  | nil => intro kwargs k _ _ _; rfl
  | cons nv rest ih =>
      intro kwargs k hk hw hh
      obtain ⟨pn, pv⟩ := nv
      have hk1 : pn ≠ k := fun h => hk (by simp [h])
      have hk2 : k ∉ rest.map Prod.fst := fun h => hk (by simp [h])
      have hwr : link = true → k = "width" → "height" ∉ rest.map Prod.fst :=
        fun hl hkk h => hw hl hkk (by simp [h])
      have hhr : link = true → k = "height" → "width" ∉ rest.map Prod.fst :=
        fun hl hkk h => hh hl hkk (by simp [h])
      show dictGet k (applyParams link rest (applyOne link kwargs (pn, pv))) =
        dictGet k kwargs
      rw [ih _ k hk2 hwr hhr]
      refine applyOne_get_other link kwargs pn pv k hk1 ?_ ?_
      · intro hl hpn hkk
        exact hw hl hkk (by simp [hpn])
      · intro hl hpn hkk
        exact hh hl hkk (by simp [hpn])

theorem applyParams_link_square (params : List (String × PyValue)) :
    ∀ kwargs : Config,
      ("width" ∈ params.map Prod.fst ∨ "height" ∈ params.map Prod.fst) →
      ∃ v, dictGet "height" (applyParams true params kwargs) = some v ∧
           dictGet "width" (applyParams true params kwargs) = some v := by
  induction params with
  | nil => intro kwargs h; simp at h
  | cons nv rest ih =>
      intro kwargs h
      obtain ⟨pn, pv⟩ := nv
      show ∃ v,
        dictGet "height" (applyParams true rest (applyOne true kwargs (pn, pv))) =
          some v ∧
        dictGet "width" (applyParams true rest (applyOne true kwargs (pn, pv))) =
          some v
      by_cases hr : "width" ∈ rest.map Prod.fst ∨ "height" ∈ rest.map Prod.fst
      · exact ih _ hr
      · push_neg at hr
        have hpn : pn = "width" ∨ pn = "height" := by
          rcases h with h | h <;> simp only [List.map_cons, List.mem_cons] at h
          · rcases h with h | h
            · exact Or.inl h.symm
            · exact absurd h hr.1
          · rcases h with h | h
            · exact Or.inr h.symm
            · exact absurd h hr.2
        obtain ⟨hget_h, hget_w⟩ := applyOne_link_hw kwargs pn pv hpn
        refine ⟨pv, ?_, ?_⟩
        · rw [applyParams_frame true rest _ "height" hr.2
            (fun _ hc => absurd hc (by decide)) (fun _ _ => hr.1)]
          exact hget_h
        · rw [applyParams_frame true rest _ "width" hr.1
            (fun _ _ => hr.2) (fun _ hc => absurd hc (by decide))]
          exact hget_w

theorem multirunsGo_cons_none (runner : Config → Dataset) (link : Bool)
    (params : List (String × PyValue))
    (rest : List (List (String × PyValue))) (kw : Config)
    (tr : List Config) (res : List (List PyValue × Stats))
    (hren : renderTuple params = none) :
    multirunsGo runner link (params :: rest) kw tr res =
      (tr ++ [applyParams link params kw], none) := by
  simp [multirunsGo, hren]

theorem multirunsGo_cons_some (runner : Config → Dataset) (link : Bool)
    (params : List (String × PyValue))
    (rest : List (List (String × PyValue))) (kw : Config)
    (tr : List Config) (res : List (List PyValue × Stats))
    (pv : List PyValue) (hren : renderTuple params = some pv) :
    multirunsGo runner link (params :: rest) kw tr res =
      multirunsGo runner link rest (applyParams link params kw)
        (tr ++ [applyParams link params kw])
        (dictUpdate res pv (dfMean (runner (applyParams link params kw)))) := by
  simp [multirunsGo, hren]

theorem multirunsGo_trace_mem (runner : Config → Dataset) (link : Bool)
    (combos : List (List (String × PyValue))) :
    ∀ (kw : Config) (tr : List Config) (res : List (List PyValue × Stats))
      (c : Config), c ∈ (multirunsGo runner link combos kw tr res).1 →
      c ∈ tr ∨
        ∃ params kw₀, params ∈ combos ∧ c = applyParams link params kw₀ := by
  induction combos with
  | nil => intro kw tr res c hc; exact Or.inl hc
  | cons params rest ih =>
      intro kw tr res c hc
      cases hren : renderTuple params with
      | none =>
          rw [multirunsGo_cons_none runner link params rest kw tr res hren] at hc
          rcases List.mem_append.mp hc with h | h
          · exact Or.inl h
          · simp only [List.mem_singleton] at h
            exact Or.inr ⟨params, kw, by simp, h⟩
      | some pv =>
          rw [multirunsGo_cons_some runner link params rest kw tr res pv hren]
            at hc
          rcases ih _ _ _ c hc with h | h
          · rcases List.mem_append.mp h with h | h
            · exact Or.inl h
            · simp only [List.mem_singleton] at h
              exact Or.inr ⟨params, kw, by simp, h⟩
          · obtain ⟨params₁, kw₀, hmem, hc₁⟩ := h
            exact Or.inr ⟨params₁, kw₀, by simp [hmem], hc₁⟩

theorem dict_product_keys {α : Type} (d : List (String × List α))
    (m : List (String × α)) (hm : m ∈ dict_product d) :
    m.map Prod.fst = d.map Prod.fst := by
  simp only [dict_product, List.mem_map] at hm
  obtain ⟨t, ht, rfl⟩ := hm
  have hlen : t.length = d.length := by
    simpa using listProduct_mem_length _ t ht
  rw [List.map_fst_zip]
  simp [hlen]

/-- Claim C7: in a sweep with the linking flag on whose grid sweeps width
or height, every configuration a run is executed with carries equal
height and width entries (setting one mirrors it onto the other); and
overlaying a combination never touches a configuration entry outside the
combination's own names when the flag is off, or for any name other than
width and height. -/
theorem pyrat_multiruns_link_spec :
    (∀ (runner : Config → Dataset) (fixed : Config)
        (grid : List (String × List PyValue)) (c : Config),
      ("width" ∈ grid.map Prod.fst ∨ "height" ∈ grid.map Prod.fst) →
      c ∈ (pyrat_multiruns runner fixed grid true).1 →
      ∃ v, dictGet "height" c = some v ∧ dictGet "width" c = some v) ∧
    (∀ (link : Bool) (params : List (String × PyValue)) (kwargs : Config)
        (k : String),
      k ∉ params.map Prod.fst →
      (link = false ∨ (k ≠ "width" ∧ k ≠ "height")) →
      dictGet k (applyParams link params kwargs) = dictGet k kwargs) := by
  constructor
  · intro runner fixed grid c hgrid hc
    have hc₁ := multirunsGo_trace_mem runner true (dict_product grid)
      (kwargsOf (PyRatGame.init fixed)) [] [] c hc
    rcases hc₁ with h | ⟨params, kw₀, hmem, rfl⟩
    · simp at h
    · have hkeys : params.map Prod.fst = grid.map Prod.fst :=
        dict_product_keys grid params hmem
      exact applyParams_link_square params kw₀ (by rw [hkeys]; exact hgrid)
  · intro link params kwargs k hk hcase
    refine applyParams_frame link params kwargs k hk ?_ ?_
    · intro hl hkk
      rcases hcase with h | h
      · rw [hl] at h; exact absurd h (by decide)
      · exact absurd hkk h.1
    · intro hl hkk
      rcases hcase with h | h
      · rw [hl] at h; exact absurd h (by decide)
      · exact absurd hkk h.2

/-- Claim C7 witness: a one-combination sweep over width 5 with linking
on runs one configuration, and it has height equal to width equal to 5;
with linking off the overlay leaves an absent unrelated key absent. -/
theorem pyrat_multiruns_link_spec_witness :
    (∃ v,
      dictGet "height"
        [("synchronous", PyValue.vbool true), ("nodrawing", PyValue.vbool true),
         ("width", PyValue.vint 5), ("height", PyValue.vint 5)] = some v ∧
      dictGet "width"
        [("synchronous", PyValue.vbool true), ("nodrawing", PyValue.vbool true),
         ("width", PyValue.vint 5), ("height", PyValue.vint 5)] = some v) ∧
    dictGet "height"
        (applyParams false [("width", PyValue.vint 5)] []) =
      dictGet "height" ([] : Config) :=
  ⟨pyrat_multiruns_link_spec.1 (fun _ => []) []
      [("width", [PyValue.vint 5])]
      [("synchronous", PyValue.vbool true), ("nodrawing", PyValue.vbool true),
       ("width", PyValue.vint 5), ("height", PyValue.vint 5)]
      (by decide) (by decide),
   pyrat_multiruns_link_spec.2 false [("width", PyValue.vint 5)] [] "height"
      (by decide) (Or.inl rfl)⟩

theorem dfMean_names (d : Dataset) :
    (dfMean d).map Prod.fst = d.map Prod.fst := by
  simp [dfMean]

theorem dictUpdate_map_fst {κ β : Type} [DecidableEq κ]
    (d : List (κ × β)) (k : κ) (v : β) :
    (dictUpdate d k v).map Prod.fst =
      if k ∈ d.map Prod.fst then d.map Prod.fst else d.map Prod.fst ++ [k] := by
  induction d with
  | nil => simp [dictUpdate]
  | cons hd tl ih =>
      obtain ⟨k₁, v₁⟩ := hd
      by_cases hk : k₁ = k
      · simp [dictUpdate, hk]
      · simp only [dictUpdate, hk, if_false, List.map_cons, List.mem_cons,
          reduceIte, ih]
        by_cases hmem : k ∈ tl.map Prod.fst
        · simp [hmem, Ne.symm hk]
        · simp [hmem, Ne.symm hk]

theorem dictUpdate_length_le {κ β : Type} [DecidableEq κ]
    (d : List (κ × β)) (k : κ) (v : β) :
    (dictUpdate d k v).length ≤ d.length + 1 := by
  induction d with
  | nil => simp [dictUpdate]
  | cons hd tl ih =>
      obtain ⟨k₁, v₁⟩ := hd
      by_cases hk : k₁ = k
      · simp [dictUpdate, hk]
      · simp only [dictUpdate, hk, if_false, reduceIte, List.length_cons]
        omega

theorem multirunsGo_success (runner : Config → Dataset) (link : Bool) :
    ∀ (combos : List (List (String × PyValue))) (kw : Config)
      (tr : List Config) (res : List (List PyValue × Stats)),
      (∀ c ∈ combos, (renderTuple c).isSome) →
      (combos.map (fun c => (renderTuple c).getD [])).Nodup →
      (∀ c ∈ combos, (renderTuple c).getD [] ∉ res.map Prod.fst) →
      ∃ rows, (multirunsGo runner link combos kw tr res).2 = some rows ∧
        rows.map Prod.fst =
          res.map Prod.fst ++ combos.map (fun c => (renderTuple c).getD []) ∧
        (∀ row ∈ rows, row ∈ res ∨ ∃ kw₁, row.2 = dfMean (runner kw₁)) := by
  intro combos
  induction combos with
  | nil =>
      intro kw tr res _ _ _
      exact ⟨res, rfl, by simp, fun row hrow => Or.inl hrow⟩
  | cons c rest ih =>
      intro kw tr res hsome hnodup hfresh
      obtain ⟨pv, hren⟩ := Option.isSome_iff_exists.mp (hsome c (by simp))
      simp only [List.map_cons, List.nodup_cons] at hnodup
      have hpv : (renderTuple c).getD [] = pv := by simp [hren]
      rw [multirunsGo_cons_some runner link c rest kw tr res pv hren]
      have hres1 : dictUpdate res pv (dfMean (runner (applyParams link c kw))) =
          res ++ [(pv, dfMean (runner (applyParams link c kw)))] :=
        dictUpdate_of_not_mem _ _ _ (hpv ▸ hfresh c (by simp))
      rw [hres1]
      obtain ⟨rows, hrows, hkeys, hmem⟩ := ih (applyParams link c kw)
        (tr ++ [applyParams link c kw])
        (res ++ [(pv, dfMean (runner (applyParams link c kw)))])
        (fun c₁ h₁ => hsome c₁ (by simp [h₁]))
        hnodup.2
        (by
          intro c₁ h₁
          simp only [List.map_append, List.map_cons, List.map_nil,
            List.mem_append, List.mem_singleton]
          push_neg
          refine ⟨hfresh c₁ (by simp [h₁]), ?_⟩
          intro hc
          exact hnodup.1 (by
            rw [hpv, ← hc]
            exact List.mem_map_of_mem _ h₁))
      refine ⟨rows, hrows, ?_, ?_⟩
      · rw [hkeys]
        simp [hpv]
      · intro row hrow
        rcases hmem row hrow with h | h
        · rcases List.mem_append.mp h with h | h
          · exact Or.inl h
          · simp only [List.mem_singleton] at h
            exact Or.inr ⟨applyParams link c kw, by rw [h]⟩
        · exact Or.inr h

theorem multirunsGo_res_bound (runner : Config → Dataset) (link : Bool) :
    ∀ (combos : List (List (String × PyValue))) (kw : Config)
      (tr : List Config) (res : List (List PyValue × Stats)),
      (∀ c ∈ combos, (renderTuple c).isSome) →
      (res.map Prod.fst).Nodup →
      ∃ rows, (multirunsGo runner link combos kw tr res).2 = some rows ∧
        (rows.map Prod.fst).Nodup ∧
        rows.length ≤ res.length + combos.length := by
  intro combos
  induction combos with
  | nil =>
      intro kw tr res _ hnodup
      exact ⟨res, rfl, hnodup, by simp⟩
  | cons c rest ih =>
      intro kw tr res hsome hnodup
      obtain ⟨pv, hren⟩ := Option.isSome_iff_exists.mp (hsome c (by simp))
      rw [multirunsGo_cons_some runner link c rest kw tr res pv hren]
      have hkeys := dictUpdate_map_fst res pv
        (dfMean (runner (applyParams link c kw)))
      have hnodup1 : ((dictUpdate res pv
          (dfMean (runner (applyParams link c kw)))).map Prod.fst).Nodup := by
        rw [hkeys]
        by_cases hmem : pv ∈ res.map Prod.fst
        · simpa [hmem] using hnodup
        · simp only [hmem, if_false, reduceIte]
          rw [List.nodup_append]
          refine ⟨hnodup, by simp, ?_⟩
          intro a ha
          simp only [List.mem_singleton]
          intro hav
          exact hmem (hav ▸ ha)
      have hle : (dictUpdate res pv
          (dfMean (runner (applyParams link c kw)))).length ≤ res.length + 1 :=
        dictUpdate_length_le _ _ _
      obtain ⟨rows, hrows, hnd, hlen⟩ := ih (applyParams link c kw)
        (tr ++ [applyParams link c kw]) _
        (fun c₁ h₁ => hsome c₁ (by simp [h₁])) hnodup1
      refine ⟨rows, hrows, hnd, ?_⟩
      simp only [List.length_cons]
      omega

theorem pyrat_multiruns_def (runner : Config → Dataset) (fixed : Config)
    (grid : List (String × List PyValue)) (link : Bool) :
    pyrat_multiruns runner fixed grid link =
      ((multirunsGo runner link (dict_product grid)
          (kwargsOf (PyRatGame.init fixed)) [] []).1,
       (multirunsGo runner link (dict_product grid)
          (kwargsOf (PyRatGame.init fixed)) [] []).2.map
         (fun rows => ⟨grid.map Prod.fst, rows⟩)) := rfl

/-- Claim C6 counterexample: a sweep over two combinations whose rendered
tuples coincide produces a table with one row, not two. -/
theorem pyrat_multiruns_rows_counterexample :
    (dict_product gridStemClash).length = 2 ∧
    ((pyrat_multiruns runnerConst [] gridStemClash false).2.map
        (fun r => r.rows.length)) = some 1 ∧
    ((pyrat_multiruns runnerConst [] gridStemClash false).2.map
        (fun r => r.rows.length)) ≠ some 2 := by
  refine ⟨by decide, by decide, by decide⟩

/-- Claim C6 (amended): when every combination renders (rat and python
values are Path objects) and the rendered tuples are pairwise distinct,
the table has exactly one row per combination, its index names are the
grid keys in grid key order, its row labels are the rendered value
tuples in combination order, and every row carries the mean-reduced
statistic names of its run's dataset (hence a fixed column set whenever
the runs report a fixed set of names). -/
theorem pyrat_multiruns_rows_spec (runner : Config → Dataset) (fixed : Config)
    (grid : List (String × List PyValue)) (link : Bool)
    (h1 : ∀ c ∈ dict_product grid, (renderTuple c).isSome)
    (h2 : ((dict_product grid).map (fun c => (renderTuple c).getD [])).Nodup) :
    ∃ r, (pyrat_multiruns runner fixed grid link).2 = some r ∧
      r.indexNames = grid.map Prod.fst ∧
      r.rows.length = (dict_product grid).length ∧
      r.rows.map Prod.fst =
        (dict_product grid).map (fun c => (renderTuple c).getD []) ∧
      (∀ ns, (∀ kw, (runner kw).map Prod.fst = ns) →
        ∀ row ∈ r.rows, row.2.map Prod.fst = ns) := by
  obtain ⟨rows, hrows, hkeys, hmem⟩ := multirunsGo_success runner link
    (dict_product grid) (kwargsOf (PyRatGame.init fixed)) [] []
    h1 h2 (by simp)
  simp only [List.map_nil, List.nil_append] at hkeys
  refine ⟨⟨grid.map Prod.fst, rows⟩, ?_, rfl, ?_, hkeys, ?_⟩
  · rw [pyrat_multiruns_def, hrows]
    rfl
  · rw [← List.length_map rows Prod.fst, hkeys, List.length_map]
  · intro ns hns row hrow
    rcases hmem row hrow with h | h
    · simp at h
    · obtain ⟨kw₁, h⟩ := h
      rw [h, dfMean_names, hns kw₁]

/-- Claim C6 witness: the three-combination sweep yields a table with
three rows, index named width, and the score column on every row. -/
theorem pyrat_multiruns_rows_spec_witness :
    ∃ r, (pyrat_multiruns runnerTwoTrials [] gridWidthSweep false).2 = some r ∧
      r.indexNames = gridWidthSweep.map Prod.fst ∧
      r.rows.length = (dict_product gridWidthSweep).length ∧
      r.rows.map Prod.fst =
        (dict_product gridWidthSweep).map (fun c => (renderTuple c).getD []) ∧
      (∀ ns, (∀ kw, (runnerTwoTrials kw).map Prod.fst = ns) →
        ∀ row ∈ r.rows, row.2.map Prod.fst = ns) :=
  pyrat_multiruns_rows_spec runnerTwoTrials [] gridWidthSweep false
    (by decide) (by decide)

/-- Claim C9: rows are accumulated in a dict keyed by the rendered tuple,
so the table always has pairwise-distinct row labels and at most one row
per combination; concretely, two combinations rendering to the same
tuple leave one single row holding the later combination's statistics. -/
theorem pyrat_multiruns_overwrite_spec :
    (∀ (runner : Config → Dataset) (fixed : Config)
        (grid : List (String × List PyValue)) (link : Bool),
      (∀ c ∈ dict_product grid, (renderTuple c).isSome) →
      ∃ r, (pyrat_multiruns runner fixed grid link).2 = some r ∧
        (r.rows.map Prod.fst).Nodup ∧
        r.rows.length ≤ (dict_product grid).length) ∧
    ((dict_product gridStemClashB).length = 2 ∧
      (pyrat_multiruns runnerMark [] gridStemClashB false).2 =
        some ⟨["rat"], [([PyValue.vstr "y"], [("score", 2)])]⟩) := by
  constructor
  · intro runner fixed grid link h1
    obtain ⟨rows, hrows, hnd, hlen⟩ := multirunsGo_res_bound runner link
      (dict_product grid) (kwargsOf (PyRatGame.init fixed)) [] [] h1 (by simp)
    refine ⟨⟨grid.map Prod.fst, rows⟩, ?_, hnd, by simpa using hlen⟩
    rw [pyrat_multiruns_def, hrows]
    rfl
  · refine ⟨by decide, ?_⟩
    rw [pyrat_multiruns_def,
      show dict_product gridStemClashB =
        [[("rat", PyValue.vpath ⟨"p/y.py", "y"⟩)],
         [("rat", PyValue.vpath ⟨"q/y.py", "y"⟩)]] from by decide,
      multirunsGo_cons_some _ _ _ _ _ _ _ [PyValue.vstr "y"] (by decide),
      multirunsGo_cons_some _ _ _ _ _ _ _ [PyValue.vstr "y"] (by decide)]
    have hget : dictGet "rat"
        (applyParams false [("rat", PyValue.vpath ⟨"q/y.py", "y"⟩)]
          (applyParams false [("rat", PyValue.vpath ⟨"p/y.py", "y"⟩)]
            (kwargsOf (PyRatGame.init [])))) =
        some (PyValue.vpath ⟨"q/y.py", "y"⟩) := by decide
    simp [multirunsGo, dictUpdate, dfMean, runnerMark, hget, gridStemClashB]

/-- Claim C9 witness: the stem-clash sweep has distinct row labels, and
no more rows than combinations. -/
theorem pyrat_multiruns_overwrite_spec_witness :
    ∃ r, (pyrat_multiruns runnerMark [] gridStemClashB false).2 = some r ∧
      (r.rows.map Prod.fst).Nodup ∧
      r.rows.length ≤ (dict_product gridStemClashB).length :=
  pyrat_multiruns_overwrite_spec.1 runnerMark [] gridStemClashB false
    (by decide)

theorem renderTuple_isSome (c : List (String × PyValue))
    (h : ∀ nv ∈ c, (renderPValue nv.1 nv.2).isSome) :
    (renderTuple c).isSome := by
  induction c with
  | nil => rfl
  | cons nv rest ih =>
      obtain ⟨v, hv⟩ := Option.isSome_iff_exists.mp (h nv (by simp))
      obtain ⟨vs, hvs⟩ :=
        Option.isSome_iff_exists.mp (ih (fun y hy => h y (by simp [hy])))
      simp [renderTuple, hv, hvs]

theorem dict_product_mem_entry {α : Type} :
    ∀ (d : List (String × List α)) (t : List α),
      List.Forall₂ (fun x xs => x ∈ xs) t (d.map Prod.snd) →
      ∀ nv ∈ (d.map Prod.fst).zip t, ∃ vs, (nv.1, vs) ∈ d ∧ nv.2 ∈ vs := by
  intro d
  induction d with
  | nil => intro t _ nv hnv; simp at hnv
  | cons e rest ih =>
      intro t hf nv hnv
      simp only [List.map_cons] at hf
      cases hf with
      | cons hv hrest =>
          simp only [List.map_cons, List.zip_cons_cons, List.mem_cons] at hnv
          rcases hnv with rfl | hnv
          · exact ⟨e.2, by simp, hv⟩
          · obtain ⟨vs, hvs, hmem⟩ := ih _ hrest nv hnv
            exact ⟨vs, by simp [hvs], hmem⟩

theorem dict_product_renders (grid : List (String × List PyValue))
    (hpath : ∀ e ∈ grid, (e.1 = "rat" ∨ e.1 = "python") →
      ∀ v ∈ e.2, ∃ p, v = PyValue.vpath p) :
    ∀ c ∈ dict_product grid, (renderTuple c).isSome := by
  intro c hc
  have hentry : ∀ nv ∈ c, ∃ vs, (nv.1, vs) ∈ grid ∧ nv.2 ∈ vs := by
    simp only [dict_product, List.mem_map] at hc
    obtain ⟨t, ht, rfl⟩ := hc
    exact dict_product_mem_entry grid t ((listProduct_mem_iff _ _).mp ht)
  apply renderTuple_isSome
  intro nv hnv
  obtain ⟨vs, hvs, hval⟩ := hentry nv hnv
  unfold renderPValue
  by_cases hname : nv.1 = "rat" ∨ nv.1 = "python"
  · obtain ⟨p, hp⟩ := hpath (nv.1, vs) hvs hname nv.2 hval
    rw [if_pos hname, hp]
    rfl
  · rw [if_neg hname]
    rfl

theorem multirunsGo_fail (runner : Config → Dataset) (link : Bool) :
    ∀ (pre : List (List (String × PyValue))) (c : List (String × PyValue))
      (post : List (List (String × PyValue))) (kw : Config)
      (tr : List Config) (res : List (List PyValue × Stats)),
      (∀ c₁ ∈ pre, (renderTuple c₁).isSome) →
      renderTuple c = none →
      (multirunsGo runner link (pre ++ c :: post) kw tr res).2 = none ∧
      (multirunsGo runner link (pre ++ c :: post) kw tr res).1.length =
        tr.length + pre.length + 1 := by
  intro pre
  induction pre with
  | nil =>
      intro c post kw tr res _ hren
      rw [List.nil_append,
        multirunsGo_cons_none runner link c post kw tr res hren]
      simp
  | cons c₀ rest ih =>
      intro c post kw tr res hpre hren
      obtain ⟨pv, hpv⟩ := Option.isSome_iff_exists.mp (hpre c₀ (by simp))
      rw [List.cons_append,
        multirunsGo_cons_some runner link c₀ (rest ++ c :: post) kw tr res pv hpv]
      obtain ⟨h1, h2⟩ := ih c post (applyParams link c₀ kw)
        (tr ++ [applyParams link c₀ kw]) _
        (fun c₁ h₁ => hpre c₁ (by simp [h₁])) hren
      refine ⟨h1, ?_⟩
      rw [h2]
      simp only [List.length_append, List.length_cons, List.length_nil]
      omega

/-- Claim C10: when every grid value under the names rat and python is a
Path object, the sweep cannot fail while rendering index tuples; and when
some combination's tuple fails to render (a rat or python value without a
stem attribute, such as a plain string), the sweep aborts with no result,
and only after that combination's run has executed: the execution trace
holds exactly the earlier combinations' runs plus the failing one. -/
theorem pyrat_multiruns_path_requirement :
    (∀ (runner : Config → Dataset) (fixed : Config)
        (grid : List (String × List PyValue)) (link : Bool),
      (∀ e ∈ grid, (e.1 = "rat" ∨ e.1 = "python") →
        ∀ v ∈ e.2, ∃ p, v = PyValue.vpath p) →
      ((pyrat_multiruns runner fixed grid link).2).isSome) ∧
    (∀ (runner : Config → Dataset) (fixed : Config)
        (grid : List (String × List PyValue)) (link : Bool)
        (pre : List (List (String × PyValue))) (c : List (String × PyValue))
        (post : List (List (String × PyValue))),
      dict_product grid = pre ++ c :: post →
      (∀ c₁ ∈ pre, (renderTuple c₁).isSome) →
      renderTuple c = none →
      (pyrat_multiruns runner fixed grid link).2 = none ∧
      (pyrat_multiruns runner fixed grid link).1.length = pre.length + 1) := by
  constructor
  · intro runner fixed grid link hpath
    obtain ⟨rows, hrows, _, _⟩ := multirunsGo_res_bound runner link
      (dict_product grid) (kwargsOf (PyRatGame.init fixed)) [] []
      (dict_product_renders grid hpath) (by simp)
    rw [pyrat_multiruns_def, hrows]
    rfl
  · intro runner fixed grid link pre c post hsplit hpre hren
    obtain ⟨h1, h2⟩ := multirunsGo_fail runner link pre c post
      (kwargsOf (PyRatGame.init fixed)) [] [] hpre hren
    rw [pyrat_multiruns_def, hsplit]
    refine ⟨?_, ?_⟩
    · rw [h1]
      rfl
    · simpa using h2

/-- Claim C10 witness: the Path-valued grid sweeps to a result, and the
string-valued grid aborts with no result after its one run executed. -/
theorem pyrat_multiruns_path_requirement_witness :
    ((pyrat_multiruns runnerEmpty [] gridPathOk false).2).isSome ∧
    ((pyrat_multiruns runnerEmpty [] gridPathBad false).2 = none ∧
      (pyrat_multiruns runnerEmpty [] gridPathBad false).1.length = 1) :=
  ⟨pyrat_multiruns_path_requirement.1 runnerEmpty [] gridPathOk false
      (by
        intro e he hname v hv
        simp only [gridPathOk, List.mem_singleton] at he
        subst he
        simp only [List.mem_singleton] at hv
        subst hv
        exact ⟨⟨"AIs/bfs.py", "bfs"⟩, rfl⟩),
   pyrat_multiruns_path_requirement.2 runnerEmpty [] gridPathBad false
      [] [("rat", PyValue.vstr "plain.py")] []
      (by decide) (by decide) (by decide)⟩
